import Mathlib

/-!
Verification of the kelvin content-addressed storage engine (store façade,
generation chain, backend capability, persist/restore protocol).

The embedding follows src/src/store.rs and src/src/backend/mod.rs. Components
of the crate whose implementation files are not present (the concrete
DiskBackend/MemBackend bodies, the Sink/Source/Content protocol, the external
cache crate) are modelled from the specification, and each such definition
says so in its doc comment.
-/

namespace Kelvin

/-- Serialized content: one natural number per byte. -/
abbrev Bytes : Type := List Nat

/-- Output of the pluggable hash capability (ByteHash digest): an opaque,
comparable byte identifier. -/
abbrev Digest : Type := List Nat

/-- Result type of Backend::put, src/src/backend/mod.rs lines 11-14:
either the bytes were stored (Ok) or were already present (AlreadyThere). -/
inductive PutResult where
  | ok
  | alreadyThere
deriving DecidableEq

/-- Which backend variant a generation holds: Persistant (disk) or
Volatile (memory). -/
inductive BackendKind where
  | disk
  | mem
deriving DecidableEq

/-- First-match association-list lookup over digest-keyed pairs. -/
def lookupAssoc {β : Type} : List (Digest × β) → Digest → Option β
  | [], _ => none
  | (d0, x) :: rest, d => if d0 = d then some x else lookupAssoc rest d

/-- State of one generation backend. Modelled from the spec section 4.1: the
concrete DiskBackend/MemBackend implementation files are not under src/, only
the Backend trait is. `entries` is the set of stored (digest, bytes) blobs.
`ioFail` is a fault model for the durable variant: digests on which `get`
fails with an I/O error (storage-medium failure, spec section 7) instead of
looking at `entries`; the error carries a numeric code. -/
structure GenState where
  kind : BackendKind
  entries : List (Digest × Bytes)
  ioFail : List (Digest × Nat)
deriving DecidableEq

/-- Outcome of one backend get: a byte reader over the stored bytes, a
NotFound error (digest absent from this backend), or an I/O error. -/
inductive GetRes where
  | found (b : Bytes)
  | notFound
  | ioErr (e : Nat)
deriving DecidableEq

/-- Backend::get, modelled from the spec section 4.1: returns the bytes
previously stored under the digest, NotFound if absent in this backend;
a storage fault registered in `ioFail` surfaces as an I/O error instead. -/
def genGet (g : GenState) (d : Digest) : GetRes :=
  match lookupAssoc g.ioFail d with
  | some e => .ioErr e
  | none =>
    match lookupAssoc g.entries d with
    | some b => .found b
    | none => .notFound

/-- Backend::put, modelled from the spec sections 3 and 4.1: writes bytes
under the digest unless already present, in which case it is a no-op
reporting AlreadyThere. -/
def genPut (g : GenState) (d : Digest) (b : Bytes) : GenState × PutResult :=
  match lookupAssoc g.entries d with
  | some _ => (g, .alreadyThere)
  | none => ({ g with entries := g.entries ++ [(d, b)] }, .ok)

/-- Backend::size, modelled from the spec section 4.1: approximate byte
count of the stored blobs. -/
def genSize (g : GenState) : Nat :=
  (g.entries.map (fun e => e.2.length)).sum

/-- Error kinds surfaced by store operations (spec section 7): NotFound,
decode error, I/O error. In src/src/store.rs these are io::Error values
distinguished by kind. -/
inductive Err where
  | notFound
  | decodeErr
  | ioErr (e : Nat)
deriving DecidableEq

/-- Digest-keyed cache state. Modelled from the spec section 4.2; the cache
crate is external to this repository. The `cache` field of StoreInner is
marked `#[allow(unused)]` and no operation in src/src/store.rs reads or
writes it, so only its presence matters here. -/
structure CacheState where
  entries : List (Digest × Bytes)
deriving DecidableEq

/-- StoreInner, src/src/store.rs lines 23-27: the generation chain (an
ArrayVec of capacity GENERATIONS) plus the cache. -/
structure StoreSt where
  generations : List GenState
  cache : CacheState
deriving DecidableEq

/-- Capacity of the generation chain, src/src/store.rs line 21. -/
def GENERATIONS : Nat := 8

/-- Generation scan from Store::get_hash, src/src/store.rs lines 146-151:
read each generation in increasing index order; the first whose get returns
Ok supplies the bytes; any Err (NotFound or I/O alike, via `if let Ok`)
moves the scan to the next generation. -/
def scanGet (gens : List GenState) (d : Digest) : Option Bytes :=
  match gens with
  | [] => none
  | g :: gs =>
    match genGet g d with
    | .found b => some b
    | _ => scanGet gs d

/-- Store::get_hash, src/src/store.rs lines 142-153, generic in the Content
type: scan the generations; on the first successful get, decode the bytes
with the Content restore function `dec` and return its result immediately;
if no generation's get succeeds, fail with NotFound. -/
def getHash {α : Type} (gens : List GenState) (d : Digest)
    (dec : Bytes → Except Err α) : Except Err α :=
  match scanGet gens d with
  | some b => dec b
  | none => .error .notFound

/-- Store::put, src/src/store.rs lines 126-132: write-lock generation 0 and
put there. Indexing `generations[0]` on an empty chain would panic, modelled
as `none`; the backend put itself cannot fail in this model. -/
def Store.put (st : StoreSt) (d : Digest) (b : Bytes) :
    Option (StoreSt × PutResult) :=
  match st.generations with
  | [] => none
  | g :: gs =>
    let p := genPut g d b
    some ({ st with generations := p.1 :: gs }, p.2)

/-- Store::flush, src/src/store.rs lines 117-124: write-lock each generation
in turn and flush it. The backends buffer nothing (spec section 4.3: flush
is a no-op for generations with no write buffering), so the state is
unchanged and the result is Ok. -/
def Store.flush (st : StoreSt) : StoreSt × Except Err Unit :=
  (st, .ok ())

/-- Store::size, src/src/store.rs lines 156-162: sum of the generations'
approximate sizes, read-locking each in turn. -/
def Store.size (st : StoreSt) : Nat :=
  (st.generations.map genSize).sum

/-- A fresh, empty backend of the given kind. -/
def emptyGen (k : BackendKind) : GenState :=
  { kind := k, entries := [], ioFail := [] }

/-- Store::volatile, src/src/store.rs lines 92-101: a store with a single
fresh Volatile (memory) generation and a fresh cache; the io::Result it
returns is always Ok. -/
def Store.volatile : Except Err StoreSt :=
  .ok { generations := [emptyGen .mem], cache := ⟨[]⟩ }

/-- Store::new, src/src/store.rs lines 80-89: `Persistant::new(path)?` may
fail with an I/O error (the disk backend constructor is not under src/;
modelled from the spec sections 4.1 and 4.3, where opening the durable
location is the only fallible step). `initErr` is the outcome of that
initialization; on success the store has a single fresh disk generation. -/
def Store.new (initErr : Option Nat) : Except Err StoreSt :=
  match initErr with
  | some e => .error (.ioErr e)
  | none => .ok { generations := [emptyGen .disk], cache := ⟨[]⟩ }

/-- Store::clone (derived Clone on an Arc, src/src/store.rs lines 18-19):
another handle to the same underlying state, not a copy of the data. -/
def Store.clone (st : StoreSt) : StoreSt :=
  st

mutual
/-- Generic Content value. Modelled from the spec section 3: primitive
fields plus the nested Content values the value owns; the concrete Content
implementations of the crate are not under src/. -/
inductive Value where
  | mk (fields : List Nat) (children : ValueList)
/-- A list of owned nested Content values (mutual with Value so that
structural recursion and induction are available). -/
inductive ValueList where
  | nil
  | cons (v : Value) (vs : ValueList)
end

deriving instance DecidableEq for Value
deriving instance DecidableEq for ValueList

/-- Byte-buffer layout of one value during the Sink protocol. Modelled from
the spec section 4.4: primitive fields in a fixed order, then the children's
digests embedded in the parent's bytes; counts and digest lengths are
length-prefixed so that the buffer is self-describing. -/
def encodeBuf (fields : List Nat) (ds : List Digest) : Bytes :=
  (fields.length :: fields) ++ (ds.length :: (ds.map (fun d => d.length :: d)).flatten)

/-- Reads exactly `n` bytes from the front of a buffer, returning them and
the rest; fails when the buffer is shorter. -/
def readChunk : Nat → Bytes → Option (List Nat × Bytes)
  | 0, b => some ([], b)
  | _ + 1, [] => none
  | n + 1, x :: b =>
    match readChunk n b with
    | some (c, r) => some (x :: c, r)
    | none => none

/-- Reads `m` length-prefixed digests from the front of a buffer. -/
def readDigests : Nat → Bytes → Option (List Digest × Bytes)
  | 0, b => some ([], b)
  | m + 1, b =>
    match b with
    | [] => none
    | len :: b2 =>
      match readChunk len b2 with
      | none => none
      | some (d, r) =>
        match readDigests m r with
        | none => none
        | some (ds, r2) => some (d :: ds, r2)

/-- Decoding of one value's buffer during the Source protocol, the inverse
of `encodeBuf`. Modelled from the spec section 4.4: fields are decoded in
the same fixed order used during persistence and the embedded child digests
are extracted; trailing garbage or a truncated buffer is malformed. -/
def decodeBuf (b : Bytes) : Option (List Nat × List Digest) :=
  match b with
  | [] => none
  | n :: b2 =>
    match readChunk n b2 with
    | none => none
    | some (fields, r) =>
      match r with
      | [] => none
      | m :: r2 =>
        match readDigests m r2 with
        | none => none
        | some (ds, rest) => if rest = [] then some (fields, ds) else none

mutual
/-- Digest a value persists under: the hash of its buffer, whose embedded
child digests are themselves `digestOf` the children (spec section 4.4,
bottom-up digesting). A pure function of the value and the hash alone. -/
def digestOf (hash : Bytes → Digest) : Value → Digest
  | .mk fields cs => hash (encodeBuf fields (digestList hash cs))
/-- Digests of a list of children, in order. -/
def digestList (hash : Bytes → Digest) : ValueList → List Digest
  | .nil => []
  | .cons v vs => digestOf hash v :: digestList hash vs
end

/-- Serialized buffer of a value (the bytes its Sink accumulates). -/
def bufOf (hash : Bytes → Digest) : Value → Bytes
  | .mk fields cs => encodeBuf fields (digestList hash cs)

mutual
/-- Sink persist protocol, modelled from the spec section 4.4: post-order
traversal — persist the children first, embed their digests in the parent's
buffer, digest the complete buffer and put it; every put targets the
generation-0 backend `g` (Store::put). Returns the updated generation-0
state and the digest handed up one level. -/
def persistVal (hash : Bytes → Digest) (g : GenState) : Value → GenState × Digest
  | .mk fields cs =>
    let p := persistChildren hash g cs
    let buf := encodeBuf fields p.2
    ((genPut p.1 (hash buf) buf).1, hash buf)
/-- Persists each child in order through the same store, collecting the
digests to embed in the parent's buffer. -/
def persistChildren (hash : Bytes → Digest) (g : GenState) :
    ValueList → GenState × List Digest
  | .nil => (g, [])
  | .cons v vs =>
    let p := persistVal hash g v
    let q := persistChildren hash p.1 vs
    (q.1, p.2 :: q.2)
end

/-- Store::persist, src/src/store.rs lines 104-115: run the Sink protocol
against this store; every blob is written to generation 0 through
Store::put, and the root digest is wrapped in a Snapshot by the caller.
An empty generation chain would make the first put panic, modelled as
`none`. -/
def Store.persist (hash : Bytes → Digest) (st : StoreSt) (v : Value) :
    Option (StoreSt × Digest) :=
  match st.generations with
  | [] => none
  | g :: gs =>
    let p := persistVal hash g v
    some ({ st with generations := p.1 :: gs }, p.2)

mutual
/-- Source restore protocol composed with Store::get_hash, modelled from
the spec section 4.4 over src/src/store.rs lines 142-153: look the digest
up across the generations (scanGet); absence everywhere is NotFound; then
decode the bytes, recursively resolving each embedded child digest through
the same store. `fuel` bounds the recursion depth of the model; every
statement supplies fuel at least the height of the value involved. -/
def restoreVal (gens : List GenState) (fuel : Nat) (d : Digest) :
    Except Err Value :=
  match fuel with
  | 0 => .error .decodeErr
  | f + 1 =>
    match scanGet gens d with
    | none => .error .notFound
    | some b =>
      match decodeBuf b with
      | none => .error .decodeErr
      | some (fields, ds) =>
        match restoreChildren gens f ds with
        | .error e => .error e
        | .ok cs => .ok (.mk fields cs)
/-- Restores each embedded child digest in order; the first failure fails
the whole restore (spec section 7, no partial silent degradation). -/
def restoreChildren (gens : List GenState) (fuel : Nat) :
    List Digest → Except Err ValueList
  | [] => .ok .nil
  | d :: ds =>
    match restoreVal gens fuel d with
    | .error e => .error e
    | .ok v =>
      match restoreChildren gens fuel ds with
      | .error e => .error e
      | .ok vs => .ok (.cons v vs)
end

/-- Snapshot, src/src/store.rs lines 42-46: a digest paired with a handle
to the store it was persisted into. -/
structure Snapshot where
  hash : Digest
  store : StoreSt

/-- Store::persist returning the Snapshot of src/src/store.rs lines
104-115: the root digest together with a clone of the store. -/
def Store.persistSnap (hash : Bytes → Digest) (st : StoreSt) (v : Value) :
    Option Snapshot :=
  match Store.persist hash st v with
  | none => none
  | some p => some { hash := p.2, store := p.1 }

/-- Snapshot::restore / Store::restore, src/src/store.rs lines 57-59 and
135-140: get_hash on the snapshot's digest against the snapshot's store,
with the recursive Value decode as the Content restore. -/
def Snapshot.restore (s : Snapshot) (fuel : Nat) : Except Err Value :=
  restoreVal s.store.generations fuel s.hash

mutual
/-- Height of a value: 1 plus the maximum height among its children; used
only to budget the restore fuel. -/
def height : Value → Nat
  | .mk _ cs => heightList cs + 1
def heightList : ValueList → Nat
  | .nil => 0
  | .cons v vs => max (height v) (heightList vs)
end

mutual
/-- Number of nodes of a value: the number of Store::put calls its persist
performs (one per Sink finalization, spec section 4.4). -/
def nodeCount : Value → Nat
  | .mk _ cs => nodeCountList cs + 1
def nodeCountList : ValueList → Nat
  | .nil => 0
  | .cons v vs => nodeCount v + nodeCountList vs
end

/-- Kind of a parking_lot RwLock acquisition: shared read or exclusive
write. -/
inductive LockKind where
  | read
  | write
deriving DecidableEq

/-- Lock trace of Store::put, src/src/store.rs line 131: one exclusive
write acquisition on generation 0 (`generations[0].write()`); on an empty
chain the indexing panics before any lock is taken. -/
def putLocks (st : StoreSt) : List (Nat × LockKind) :=
  match st.generations with
  | [] => []
  | _ :: _ => [(0, .write)]

/-- Lock trace of Store::flush, src/src/store.rs lines 119-121: the loop
takes an exclusive write lock on each generation of the chain in turn
(`gen.write().flush()`). -/
def flushLocks (st : StoreSt) : List (Nat × LockKind) :=
  (List.range st.generations.length).map (fun i => (i, LockKind.write))

/-- Lock trace of the generation scan in Store::get_hash from generation
index `i` on: a shared read lock per visited generation
(`gen.read().get(hash)`), the visit stopping at the first successful get. -/
def scanLocks (i : Nat) (gens : List GenState) (d : Digest) :
    List (Nat × LockKind) :=
  match gens with
  | [] => []
  | g :: gs =>
    (i, .read) ::
      match genGet g d with
      | .found _ => []
      | _ => scanLocks (i + 1) gs d

/-- Lock trace of Store::get_hash / Store::restore, src/src/store.rs lines
146-151. -/
def getHashLocks (st : StoreSt) (d : Digest) : List (Nat × LockKind) :=
  scanLocks 0 st.generations d

/-- Lock trace of Store::size, src/src/store.rs lines 158-160: a shared
read lock on every generation. -/
def sizeLocks (st : StoreSt) : List (Nat × LockKind) :=
  (List.range st.generations.length).map (fun i => (i, LockKind.read))

/-- Lock trace of Store::persist: one Store::put (hence one generation-0
write acquisition) per Sink finalization, i.e. one per node of the value;
an empty chain panics at the first put before any lock is taken. -/
def persistLocks (st : StoreSt) (v : Value) : List (Nat × LockKind) :=
  match st.generations with
  | [] => []
  | _ :: _ => List.replicate (nodeCount v) (0, .write)

/-- Store states reachable through the public construction and mutation
surface of src/src/store.rs: Store::volatile, Store::new, Store::put,
Store::persist, Store::flush (restore and size read the state without
changing it, and Store::clone shares it). -/
inductive Reachable : StoreSt → Prop where
  | vol (st : StoreSt) : Store.volatile = .ok st → Reachable st
  | nw (e : Option Nat) (st : StoreSt) : Store.new e = .ok st → Reachable st
  | put (st st2 : StoreSt) (d : Digest) (b : Bytes) (r : PutResult) :
      Reachable st → Store.put st d b = some (st2, r) → Reachable st2
  | persist (hash : Bytes → Digest) (st st2 : StoreSt) (v : Value) (d : Digest) :
      Reachable st → Store.persist hash st v = some (st2, d) → Reachable st2
  | flush (st : StoreSt) : Reachable st → Reachable (Store.flush st).1

/-- Cacheless store put: the same write as Store::put, on a bare generation
chain ("a store with no cache at all", spec section 3); comparator for the
cache-refinement claim. -/
def putG (gens : List GenState) (d : Digest) (b : Bytes) :
    Option (List GenState × PutResult) :=
  match gens with
  | [] => none
  | g :: gs =>
    let p := genPut g d b
    some (p.1 :: gs, p.2)

/-- Cacheless store persist: the Sink protocol on a bare generation chain;
comparator for the cache-refinement claim. -/
def persistG (hash : Bytes → Digest) (gens : List GenState) (v : Value) :
    Option (List GenState × Digest) :=
  match gens with
  | [] => none
  | g :: gs =>
    let p := persistVal hash g v
    some (p.1 :: gs, p.2)

/-- Cacheless store size: sum of the generations' sizes. -/
def sizeG (gens : List GenState) : Nat :=
  (gens.map genSize).sum

theorem genGet_not_found_of_absent (g : GenState) (d : Digest)
    (h : lookupAssoc g.entries d = none) : ∀ b, genGet g d ≠ .found b := by
  intro b hb
  unfold genGet at hb
  cases hio : lookupAssoc g.ioFail d with
  | some e => rw [hio] at hb; exact GetRes.noConfusion hb
  | none => rw [hio, h] at hb; exact GetRes.noConfusion hb

theorem scanGet_none (d : Digest) :
    ∀ gens : List GenState, (∀ g ∈ gens, ∀ b, genGet g d ≠ .found b) →
      scanGet gens d = none := by
  intro gens
  induction gens with
  | nil => intro _; rfl
  | cons g gs ih =>
    intro h
    have hrest := ih (fun g2 hg2 => h g2 (List.mem_cons_of_mem g hg2))
    have hg := h g (List.mem_cons_self g gs)
    unfold scanGet
    cases hget : genGet g d with
    | found b => exact absurd hget (hg b)
    | notFound => simpa using hrest
    | ioErr e => simpa using hrest

theorem getHash_of_scan_some {α : Type} (gens : List GenState) (d : Digest)
    (dec : Bytes → Except Err α) (b : Bytes) (h : scanGet gens d = some b) :
    getHash gens d dec = dec b := by
  unfold getHash
  rw [h]

theorem getHash_of_scan_none {α : Type} (gens : List GenState) (d : Digest)
    (dec : Bytes → Except Err α) (h : scanGet gens d = none) :
    getHash gens d dec = Except.error Err.notFound := by
  unfold getHash
  rw [h]

theorem scanGet_skip (g : GenState) (gs : List GenState) (d : Digest)
    (h : ∀ b, genGet g d ≠ .found b) :
    scanGet (g :: gs) d = scanGet gs d := by
  cases hget : genGet g d with
  | found b => exact absurd hget (h b)
  | notFound => simp only [scanGet, hget]
  | ioErr e => simp only [scanGet, hget]

theorem scanGet_hit (g : GenState) (gs : List GenState) (d : Digest)
    (b : Bytes) (h : genGet g d = .found b) :
    scanGet (g :: gs) d = some b := by
  unfold scanGet
  rw [h]

/-- C2, corrected. The Store::get_hash loop matches `if let Ok(read)` on
each generation's get, so an I/O error from a generation is treated exactly
like a miss: the scan skips to the next (older) generation, and if no
generation's get succeeds the caller receives a NotFound error — the I/O
error kind is discarded, not propagated. -/
theorem C2_io_error_swallowed {α : Type} (g : GenState) (gs : List GenState)
    (d : Digest) (dec : Bytes → Except Err α) (e : Nat)
    (h : genGet g d = .ioErr e) :
    getHash (g :: gs) d dec = getHash gs d dec ∧
    ((∀ g2 ∈ gs, ∀ b, genGet g2 d ≠ .found b) →
      getHash (g :: gs) d dec = Except.error Err.notFound) := by
  have hnf : ∀ b, genGet g d ≠ .found b := by
    intro b hb
    rw [h] at hb
    exact GetRes.noConfusion hb
  have hskip := scanGet_skip g gs d hnf
  constructor
  · unfold getHash
    rw [hskip]
  · intro habs
    have hnone : scanGet (g :: gs) d = none := by
      rw [hskip]
      exact scanGet_none d gs habs
    exact getHash_of_scan_none _ _ _ hnone

theorem C2_io_error_swallowed_witness :
    getHash [GenState.mk .mem [] [([1], 7)]] [1]
        (fun _ => Except.ok (0 : Nat)) =
      getHash [] [1] (fun _ => Except.ok (0 : Nat)) ∧
    getHash [GenState.mk .mem [] [([1], 7)]] [1]
        (fun _ => Except.ok (0 : Nat)) = Except.error Err.notFound := by
  have t := C2_io_error_swallowed (GenState.mk .mem [] [([1], 7)]) [] [1]
    (fun _ => Except.ok (0 : Nat)) 7 (by rfl)
  exact ⟨t.1, t.2 (by intro g2 hg2 b hb; exact absurd hg2 (List.not_mem_nil g2))⟩

/-- C2, counterexample to the claim as stated: a generation whose get fails
with I/O error code 7 on digest [1]; restore (get_hash) on that digest
returns a NotFound error, not the I/O error — the error kind is
substituted, contradicting "propagated unchanged ... no substitution of a
different error kind". -/
theorem C2_counterexample :
    genGet (GenState.mk .mem [] [([1], 7)]) [1] = .ioErr 7 ∧
    getHash [GenState.mk .mem [] [([1], 7)]] [1]
        (fun _ => Except.ok (0 : Nat)) = Except.error Err.notFound ∧
    Except.error (α := Nat) (Err.ioErr 7) ≠ Except.error Err.notFound := by
  refine ⟨rfl, rfl, ?_⟩
  intro h
  have := Except.error.inj h
  exact Err.noConfusion this

/-- C3, confirmed. Restoring a digest absent from every generation's
storage fails with NotFound (the scan misses everywhere — a registered I/O
fault also counts as a miss — and the loop's fall-through builds the
NotFound error); while for a digest some generation does hold, the Content
decode runs and a malformed buffer surfaces as its decode error, never as
NotFound. -/
theorem C3_notfound_vs_decode {α : Type} (gens : List GenState) (d : Digest)
    (dec : Bytes → Except Err α) :
    ((∀ g ∈ gens, lookupAssoc g.entries d = none) →
      getHash gens d dec = Except.error Err.notFound) ∧
    (∀ b, scanGet gens d = some b → dec b = Except.error Err.decodeErr →
      getHash gens d dec = Except.error Err.decodeErr) ∧
    Except.error (α := α) Err.notFound ≠ Except.error (α := α) Err.decodeErr := by
  refine ⟨?_, ?_, ?_⟩
  · intro habs
    have hnone : scanGet gens d = none :=
      scanGet_none d gens
        (fun g hg => genGet_not_found_of_absent g d (habs g hg))
    exact getHash_of_scan_none _ _ _ hnone
  · intro b hscan hdec
    rw [getHash_of_scan_some gens d dec b hscan]
    exact hdec
  · intro h
    exact Err.noConfusion (Except.error.inj h)

theorem C3_notfound_vs_decode_witness :
    getHash ([] : List GenState) [2]
        (fun b => match decodeBuf b with
          | none => Except.error Err.decodeErr
          | some p => Except.ok p) = Except.error Err.notFound ∧
    getHash [GenState.mk .mem [([2], [5])] []] [2]
        (fun b => match decodeBuf b with
          | none => Except.error Err.decodeErr
          | some p => Except.ok p) = Except.error Err.decodeErr := by
  have t1 := (C3_notfound_vs_decode ([] : List GenState) [2]
    (fun b => match decodeBuf b with
      | none => Except.error Err.decodeErr
      | some p => Except.ok p)).1
  have t2 := (C3_notfound_vs_decode [GenState.mk .mem [([2], [5])] []] [2]
    (fun b => match decodeBuf b with
      | none => Except.error Err.decodeErr
      | some p => Except.ok p)).2.1
  refine ⟨t1 ?_, t2 [5] rfl rfl⟩
  intro g hg
  exact absurd hg (List.not_mem_nil g)

/-- C4, confirmed. Store::put writes through generation 0 only (the head
of the chain; the tail is untouched), and the get_hash scan visits
generations in increasing index order stopping at the first successful
get, so a digest present in generation 0 is always served from the
generation-0 copy even when an older generation also holds it. -/
theorem C4_writes_gen0_reads_in_order {α : Type} :
    (∀ (st st2 : StoreSt) (d : Digest) (b : Bytes) (r : PutResult),
      Store.put st d b = some (st2, r) →
      ∃ g gs, st.generations = g :: gs ∧
        st2.generations = (genPut g d b).1 :: gs) ∧
    (∀ (g : GenState) (gs : List GenState) (d : Digest)
      (dec : Bytes → Except Err α) (b : Bytes),
      genGet g d = .found b → getHash (g :: gs) d dec = dec b) ∧
    (∀ (g : GenState) (gs : List GenState) (d : Digest)
      (dec : Bytes → Except Err α),
      (∀ b, genGet g d ≠ .found b) →
      getHash (g :: gs) d dec = getHash gs d dec) := by
  refine ⟨?_, ?_, ?_⟩
  · intro st st2 d b r hput
    match hgens : st.generations with
    | [] =>
      unfold Store.put at hput
      rw [hgens] at hput
      exact Option.noConfusion hput
    | g :: gs =>
      unfold Store.put at hput
      rw [hgens] at hput
      have hpair := Option.some.inj hput
      have h2 : ({ st with generations := (genPut g d b).1 :: gs } : StoreSt) = st2 :=
        congrArg Prod.fst hpair
      exact ⟨g, gs, rfl, by rw [← h2]⟩
  · intro g gs d dec b hget
    exact getHash_of_scan_some _ _ _ _ (scanGet_hit g gs d b hget)
  · intro g gs d dec hnf
    unfold getHash
    rw [scanGet_skip g gs d hnf]

theorem C4_writes_gen0_reads_in_order_witness :
    (∃ g gs, (StoreSt.mk [GenState.mk .mem [] []] ⟨[]⟩).generations = g :: gs ∧
      (StoreSt.mk [(genPut (GenState.mk .mem [] []) [3] [9]).1] ⟨[]⟩).generations =
        (genPut g [3] [9]).1 :: gs) ∧
    getHash [GenState.mk .mem [([1], [10])] [],
             GenState.mk .mem [([1], [99])] []] [1]
        (fun b => Except.ok b) = Except.ok [10] := by
  have t := C4_writes_gen0_reads_in_order (α := Bytes)
  constructor
  · exact t.1 (StoreSt.mk [GenState.mk .mem [] []] ⟨[]⟩)
      (StoreSt.mk [(genPut (GenState.mk .mem [] []) [3] [9]).1] ⟨[]⟩)
      [3] [9] PutResult.ok rfl
  · exact t.2.1 (GenState.mk .mem [([1], [10])] [])
      [GenState.mk .mem [([1], [99])] []] [1] (fun b => Except.ok b) [10] rfl

/-- C10, confirmed. In get_hash the first generation whose get succeeds
fully determines the outcome: the loop returns `T::restore` on those bytes
immediately, so a decode error from that generation is the final result,
and the older generations (whatever they hold) are never consulted. -/
theorem C10_first_hit_decides {α : Type} (g : GenState)
    (gs gs2 : List GenState) (d : Digest) (dec : Bytes → Except Err α)
    (b : Bytes) (e : Err) (hget : genGet g d = .found b)
    (hdec : dec b = Except.error e) :
    getHash (g :: gs) d dec = Except.error e ∧
    getHash (g :: gs) d dec = getHash (g :: gs2) d dec := by
  have h1 := getHash_of_scan_some (g :: gs) d dec b (scanGet_hit g gs d b hget)
  have h2 := getHash_of_scan_some (g :: gs2) d dec b (scanGet_hit g gs2 d b hget)
  exact ⟨by rw [h1, hdec], by rw [h1, h2]⟩

theorem C10_first_hit_decides_witness :
    getHash [GenState.mk .mem [([1], [5])] [],
             GenState.mk .mem [([1], [0, 0])] []] [1]
        (fun b => match decodeBuf b with
          | none => Except.error Err.decodeErr
          | some p => Except.ok p) = Except.error Err.decodeErr ∧
    getHash [GenState.mk .mem [([1], [5])] [],
             GenState.mk .mem [([1], [0, 0])] []] [1]
        (fun b => match decodeBuf b with
          | none => Except.error Err.decodeErr
          | some p => Except.ok p) =
      getHash [GenState.mk .mem [([1], [5])] []] [1]
        (fun b => match decodeBuf b with
          | none => Except.error Err.decodeErr
          | some p => Except.ok p) := by
  exact C10_first_hit_decides (GenState.mk .mem [([1], [5])] [])
    [GenState.mk .mem [([1], [0, 0])] []] [] [1]
    (fun b => match decodeBuf b with
      | none => Except.error Err.decodeErr
      | some p => Except.ok p) [5] Err.decodeErr rfl rfl

theorem lookupAssoc_none_not_mem {β : Type} (d : Digest) :
    ∀ es : List (Digest × β), lookupAssoc es d = none →
      d ∉ es.map Prod.fst := by
  intro es
  induction es with
  | nil =>
    intro _ hmem
    simp at hmem
  | cons p rest ih =>
    obtain ⟨d0, x⟩ := p
    intro hl hmem
    unfold lookupAssoc at hl
    by_cases hd : d0 = d
    · rw [if_pos hd] at hl
      exact Option.noConfusion hl
    · rw [if_neg hd] at hl
      rcases List.mem_cons.mp hmem with hh | ht
      · exact hd hh.symm
      · exact ih hl ht

/-- C5, confirmed for the spec-modelled backends (the DiskBackend and
MemBackend bodies are not under src/; only the Backend trait and PutResult
are). A put with an already-present digest is a no-op: the backend state is
returned unchanged (the stored bytes for the digest in particular), the
result is AlreadyThere, and any put preserves key uniqueness of the stored
blobs, so at most one copy of the bytes for a digest ever exists. -/
theorem C5_second_put_noop (g : GenState) (d : Digest) (b0 b2 : Bytes)
    (h : lookupAssoc g.entries d = some b0) :
    genPut g d b2 = (g, .alreadyThere) ∧
    lookupAssoc (genPut g d b2).1.entries d = some b0 ∧
    (∀ d3 b3, (g.entries.map Prod.fst).Nodup →
      ((genPut g d3 b3).1.entries.map Prod.fst).Nodup) := by
  have h1 : genPut g d b2 = (g, .alreadyThere) := by
    unfold genPut
    rw [h]
  refine ⟨h1, by rw [h1]; exact h, ?_⟩
  intro d3 b3 hnd
  unfold genPut
  cases h3 : lookupAssoc g.entries d3 with
  | some _ => simpa using hnd
  | none =>
    have hnin := lookupAssoc_none_not_mem d3 g.entries h3
    simp only [List.map_append, List.map_cons, List.map_nil]
    rw [List.nodup_append]
    refine ⟨hnd, List.nodup_singleton d3, ?_⟩
    intro a ha hb
    rw [List.mem_singleton.mp hb] at ha
    exact hnin ha

theorem C5_second_put_noop_witness :
    genPut (GenState.mk .mem [([4], [8, 9])] []) [4] [7] =
      (GenState.mk .mem [([4], [8, 9])] [], .alreadyThere) ∧
    lookupAssoc (genPut (GenState.mk .mem [([4], [8, 9])] []) [4] [7]).1.entries
      [4] = some [8, 9] ∧
    (∀ d3 b3, ((GenState.mk .mem [([4], [8, 9])] []).entries.map Prod.fst).Nodup →
      ((genPut (GenState.mk .mem [([4], [8, 9])] []) d3 b3).1.entries.map
        Prod.fst).Nodup) :=
  C5_second_put_noop (GenState.mk .mem [([4], [8, 9])] []) [4] [8, 9] [7] rfl

/-- C7, confirmed. The StoreInner cache field is declared
`#[allow(unused)]` and no operation in src/src/store.rs ever reads or
writes it, so every Store operation returns exactly the result of the same
operation on a cacheless store (the bare generation chain), for every cache
content, and leaves the cache untouched. -/
theorem C7_cache_unobservable (gens : List GenState) (c : CacheState) :
    (∀ fuel d, Snapshot.restore ⟨d, ⟨gens, c⟩⟩ fuel = restoreVal gens fuel d) ∧
    Store.size ⟨gens, c⟩ = sizeG gens ∧
    (∀ d b, Store.put ⟨gens, c⟩ d b =
      (putG gens d b).map (fun p => (⟨p.1, c⟩, p.2))) ∧
    (∀ hash v, Store.persist hash ⟨gens, c⟩ v =
      (persistG hash gens v).map (fun p => (⟨p.1, c⟩, p.2))) ∧
    Store.flush ⟨gens, c⟩ = (⟨gens, c⟩, Except.ok ()) := by
  refine ⟨fun fuel d => rfl, rfl, ?_, ?_, rfl⟩
  · intro d b
    cases gens <;> rfl
  · intro hash v
    cases gens <;> rfl

/-- C8, confirmed. Store::volatile returns Ok unconditionally: the
constructed store has exactly one generation, a fresh Volatile (memory)
backend, and no error value is ever produced. -/
theorem C8_volatile_infallible :
    ∃ st : StoreSt, Store.volatile = .ok st ∧
      st.generations = [emptyGen .mem] ∧ ∀ e, Store.volatile ≠ .error e := by
  refine ⟨_, rfl, rfl, ?_⟩
  intro e h
  exact Except.noConfusion h

theorem reachable_gen_count (st : StoreSt) (h : Reachable st) :
    st.generations.length = 1 := by
  induction h with
  | vol st h =>
    have h2 : ({ generations := [emptyGen .mem], cache := ⟨[]⟩ } : StoreSt) = st :=
      Except.ok.inj h
    rw [← h2]
    rfl
  | nw e st h =>
    cases e with
    | some x => exact Except.noConfusion h
    | none =>
      have h2 : ({ generations := [emptyGen .disk], cache := ⟨[]⟩ } : StoreSt) = st :=
        Except.ok.inj h
      rw [← h2]
      rfl
  | put st st2 d b r hr hput ih =>
    cases hgens : st.generations with
    | nil =>
      unfold Store.put at hput
      rw [hgens] at hput
      exact Option.noConfusion hput
    | cons g gs =>
      unfold Store.put at hput
      rw [hgens] at hput
      have hpair := Option.some.inj hput
      have h2 : ({ st with generations := (genPut g d b).1 :: gs } : StoreSt) = st2 :=
        congrArg Prod.fst hpair
      rw [← h2]
      rw [hgens] at ih
      simpa using ih
  | persist hash st st2 v d hr hp ih =>
    cases hgens : st.generations with
    | nil =>
      unfold Store.persist at hp
      rw [hgens] at hp
      exact Option.noConfusion hp
    | cons g gs =>
      unfold Store.persist at hp
      rw [hgens] at hp
      have hpair := Option.some.inj hp
      have h2 : ({ st with generations := (persistVal hash g v).1 :: gs } : StoreSt) = st2 :=
        congrArg Prod.fst hpair
      rw [← h2]
      rw [hgens] at ih
      simpa using ih
  | flush st hr ih => exact ih

/-- C6, confirmed on every reachable store state (all of which have exactly
one generation, so generation 0 is the whole chain). The put and flush lock
traces are a single exclusive write acquisition on generation 0 (note: the
flush loop write-locks every generation of the chain, and the chain always
has length one); get_hash/restore and size only ever take shared read
locks, all on generation 0; persist takes one generation-0 write lock per
Sink finalization. No generation of index 1 or above is ever locked, in
particular never write-locked. -/
theorem C6_gen0_lock_discipline (st : StoreSt) (h : Reachable st) :
    putLocks st = [(0, .write)] ∧
    flushLocks st = [(0, .write)] ∧
    (∀ d, getHashLocks st d = [(0, .read)]) ∧
    sizeLocks st = [(0, .read)] ∧
    (∀ v, persistLocks st v = List.replicate (nodeCount v) (0, .write)) := by
  have hlen := reachable_gen_count st h
  obtain ⟨g, hg⟩ := List.length_eq_one.mp hlen
  refine ⟨?_, ?_, ?_, ?_, ?_⟩
  · unfold putLocks
    rw [hg]
  · unfold flushLocks
    rw [hg]
    rfl
  · intro d
    unfold getHashLocks
    rw [hg]
    cases hgd : genGet g d <;> simp [scanLocks, hgd]
  · unfold sizeLocks
    rw [hg]
    rfl
  · intro v
    unfold persistLocks
    rw [hg]

theorem C6_gen0_lock_discipline_witness :
    putLocks (StoreSt.mk [emptyGen .mem] ⟨[]⟩) = [(0, .write)] ∧
    flushLocks (StoreSt.mk [emptyGen .mem] ⟨[]⟩) = [(0, .write)] ∧
    getHashLocks (StoreSt.mk [emptyGen .mem] ⟨[]⟩) [4] = [(0, .read)] ∧
    sizeLocks (StoreSt.mk [emptyGen .mem] ⟨[]⟩) = [(0, .read)] ∧
    persistLocks (StoreSt.mk [emptyGen .mem] ⟨[]⟩) (.mk [1] .nil) =
      List.replicate (nodeCount (.mk [1] .nil)) (0, .write) := by
  have t := C6_gen0_lock_discipline (StoreSt.mk [emptyGen .mem] ⟨[]⟩)
    (Reachable.vol _ rfl)
  exact ⟨t.1, t.2.1, t.2.2.1 [4], t.2.2.2.1, t.2.2.2.2 (.mk [1] .nil)⟩

/-- C9, confirmed. Both constructors produce a chain of exactly one
generation (far below the ArrayVec capacity of 8); put and persist replace
the generation-0 backend in place and keep the tail of the chain, flush and
clone leave the state as is (restore and size do not touch the chain
structure at all), so every reachable store has exactly one generation and
the get_hash scan inspects exactly that one backend. -/
theorem C9_exactly_one_generation :
    (∀ st, Store.volatile = .ok st → st.generations.length = 1) ∧
    (∀ e st, Store.new e = .ok st → st.generations.length = 1) ∧
    (∀ st st2 d b r, Store.put st d b = some (st2, r) →
      st2.generations.length = st.generations.length ∧
      st2.generations.tail = st.generations.tail) ∧
    (∀ hash st v st2 dg, Store.persist hash st v = some (st2, dg) →
      st2.generations.length = st.generations.length ∧
      st2.generations.tail = st.generations.tail) ∧
    (∀ st, (Store.flush st).1 = st ∧ Store.clone st = st) ∧
    (∀ st, Reachable st → st.generations.length = 1 ∧ 1 < GENERATIONS) := by
  refine ⟨?_, ?_, ?_, ?_, fun st => ⟨rfl, rfl⟩, ?_⟩
  · intro st h
    have h2 : ({ generations := [emptyGen .mem], cache := ⟨[]⟩ } : StoreSt) = st :=
      Except.ok.inj h
    rw [← h2]
    rfl
  · intro e st h
    cases e with
    | some x => exact Except.noConfusion h
    | none =>
      have h2 : ({ generations := [emptyGen .disk], cache := ⟨[]⟩ } : StoreSt) = st :=
        Except.ok.inj h
      rw [← h2]
      rfl
  · intro st st2 d b r hput
    cases hgens : st.generations with
    | nil =>
      unfold Store.put at hput
      rw [hgens] at hput
      exact Option.noConfusion hput
    | cons g gs =>
      unfold Store.put at hput
      rw [hgens] at hput
      have h2 : ({ st with generations := (genPut g d b).1 :: gs } : StoreSt) = st2 :=
        congrArg Prod.fst (Option.some.inj hput)
      rw [← h2]
      exact ⟨rfl, rfl⟩
  · intro hash st v st2 dg hp
    cases hgens : st.generations with
    | nil =>
      unfold Store.persist at hp
      rw [hgens] at hp
      exact Option.noConfusion hp
    | cons g gs =>
      unfold Store.persist at hp
      rw [hgens] at hp
      have h2 : ({ st with generations := (persistVal hash g v).1 :: gs } : StoreSt) = st2 :=
        congrArg Prod.fst (Option.some.inj hp)
      rw [← h2]
      exact ⟨rfl, rfl⟩
  · intro st hr
    exact ⟨reachable_gen_count st hr, by decide⟩

theorem C9_exactly_one_generation_witness :
    (StoreSt.mk [emptyGen .mem] ⟨[]⟩).generations.length = 1 ∧
    (StoreSt.mk [emptyGen .disk] ⟨[]⟩).generations.length = 1 ∧
    ((StoreSt.mk [(genPut (emptyGen .mem) [3] [9]).1] ⟨[]⟩).generations.length =
        (StoreSt.mk [emptyGen .mem] ⟨[]⟩).generations.length ∧
      (StoreSt.mk [(genPut (emptyGen .mem) [3] [9]).1] ⟨[]⟩).generations.tail =
        (StoreSt.mk [emptyGen .mem] ⟨[]⟩).generations.tail) ∧
    (StoreSt.mk [emptyGen .mem] ⟨[]⟩).generations.length = 1 ∧ 1 < GENERATIONS := by
  have t := C9_exactly_one_generation
  refine ⟨t.1 _ rfl, t.2.1 none _ rfl, ?_, t.2.2.2.2.2 _ (Reachable.vol _ rfl)⟩
  exact t.2.2.1 (StoreSt.mk [emptyGen .mem] ⟨[]⟩)
    (StoreSt.mk [(genPut (emptyGen .mem) [3] [9]).1] ⟨[]⟩) [3] [9] PutResult.ok rfl

/-- Content-addressing invariant of a backend: every stored blob is keyed
by the digest of its own bytes (spec section 3, "Stored blob"); holds for a
fresh backend and is preserved by the Sink protocol, whose puts always use
the digest of the buffer being written. -/
def WFgen (hash : Bytes → Digest) (g : GenState) : Prop :=
  ∀ p ∈ g.entries, p.1 = hash p.2

/-- Store extension: every blob of `g` is still readable, unchanged, in
`g2` (blobs are immutable and never overwritten). -/
def ExtGen (g g2 : GenState) : Prop :=
  ∀ d b, lookupAssoc g.entries d = some b → lookupAssoc g2.entries d = some b

mutual
/-- The backend `g` holds the whole Merkle-DAG of `v`: the blob for `v`
itself under its digest, and recursively the blobs of all its children. -/
def ContainsV (hash : Bytes → Digest) (g : GenState) : Value → Prop
  | .mk fields cs =>
    lookupAssoc g.entries (digestOf hash (.mk fields cs)) =
      some (bufOf hash (.mk fields cs)) ∧ ContainsL hash g cs
/-- Each value of the list is held by the backend `g`. -/
def ContainsL (hash : Bytes → Digest) (g : GenState) : ValueList → Prop
  | .nil => True
  | .cons v vs => ContainsV hash g v ∧ ContainsL hash g vs
end

theorem readChunk_append (xs : List Nat) :
    ∀ rest : Bytes, readChunk xs.length (xs ++ rest) = some (xs, rest) := by
  induction xs with
  | nil => intro rest; rfl
  | cons x xs ih =>
    intro rest
    simp [readChunk, ih rest]

theorem readDigests_append (ds : List Digest) :
    ∀ rest : Bytes,
      readDigests ds.length ((ds.map (fun d => d.length :: d)).flatten ++ rest) =
        some (ds, rest) := by
  induction ds with
  | nil => intro rest; rfl
  | cons d ds ih =>
    intro rest
    simp only [List.length_cons, List.map_cons, List.flatten_cons,
      List.cons_append, List.append_assoc, readDigests, readChunk_append, ih rest]

theorem decodeBuf_encodeBuf (fields : List Nat) (ds : List Digest) :
    decodeBuf (encodeBuf fields ds) = some (fields, ds) := by
  have h1 := readChunk_append fields
    (ds.length :: (ds.map (fun d => d.length :: d)).flatten)
  have h2 := readDigests_append ds []
  rw [List.append_nil] at h2
  simp [encodeBuf, decodeBuf, h1, h2]

theorem lookupAssoc_some_mem {b : Bytes} (d : Digest) :
    ∀ es : List (Digest × Bytes), lookupAssoc es d = some b → (d, b) ∈ es := by
  intro es
  induction es with
  | nil => intro h; exact Option.noConfusion h
  | cons p rest ih =>
    obtain ⟨d0, x⟩ := p
    intro h
    unfold lookupAssoc at h
    by_cases hd : d0 = d
    · rw [if_pos hd] at h
      rw [List.mem_cons]
      exact Or.inl (by rw [hd, Option.some.inj h])
    · rw [if_neg hd] at h
      exact List.mem_cons_of_mem _ (ih h)

theorem lookupAssoc_append_left {β : Type} {b : β} (d : Digest)
    (es es2 : List (Digest × β)) (h : lookupAssoc es d = some b) :
    lookupAssoc (es ++ es2) d = some b := by
  induction es with
  | nil => exact Option.noConfusion h
  | cons p rest ih =>
    obtain ⟨d0, x⟩ := p
    unfold lookupAssoc at h
    by_cases hd : d0 = d
    · rw [if_pos hd] at h
      simp only [List.cons_append, lookupAssoc, if_pos hd]
      exact h
    · rw [if_neg hd] at h
      simp only [List.cons_append, lookupAssoc, if_neg hd]
      exact ih h

theorem lookupAssoc_append_self {β : Type} (d : Digest) (b : β)
    (es : List (Digest × β)) (h : lookupAssoc es d = none) :
    lookupAssoc (es ++ [(d, b)]) d = some b := by
  induction es with
  | nil => simp [lookupAssoc]
  | cons p rest ih =>
    obtain ⟨d0, x⟩ := p
    unfold lookupAssoc at h
    by_cases hd : d0 = d
    · rw [if_pos hd] at h
      exact Option.noConfusion h
    · rw [if_neg hd] at h
      simp only [List.cons_append, lookupAssoc, if_neg hd]
      exact ih h

theorem genPut_lookup_self (hash : Bytes → Digest)
    (hinj : Function.Injective hash) (g : GenState) (hwf : WFgen hash g)
    (b : Bytes) :
    lookupAssoc (genPut g (hash b) b).1.entries (hash b) = some b := by
  unfold genPut
  cases hl : lookupAssoc g.entries (hash b) with
  | some b0 =>
    have hmem := lookupAssoc_some_mem (hash b) g.entries hl
    have hkey := hwf (hash b, b0) hmem
    have hb : b = b0 := hinj hkey
    simpa [hl] using hb.symm
  | none =>
    simpa using lookupAssoc_append_self (hash b) b g.entries hl

theorem genPut_preserves_lookup (g : GenState) (d2 : Digest) (b2 : Bytes) :
    ExtGen g (genPut g d2 b2).1 := by
  intro d b h
  unfold genPut
  cases hl : lookupAssoc g.entries d2 with
  | some _ => exact h
  | none => exact lookupAssoc_append_left d g.entries [(d2, b2)] h

theorem genPut_preserves_WF (hash : Bytes → Digest) (g : GenState)
    (hwf : WFgen hash g) (b : Bytes) : WFgen hash (genPut g (hash b) b).1 := by
  unfold genPut
  cases hl : lookupAssoc g.entries (hash b) with
  | some _ => exact hwf
  | none =>
    intro p hp
    simp only at hp
    rcases List.mem_append.mp hp with hold | hnew
    · exact hwf p hold
    · rw [List.mem_singleton.mp hnew]

theorem genPut_preserves_ioFail (g : GenState) (d : Digest) (b : Bytes) :
    (genPut g d b).1.ioFail = g.ioFail := by
  unfold genPut
  cases lookupAssoc g.entries d <;> rfl

theorem extGen_refl (g : GenState) : ExtGen g g :=
  fun _ _ h => h

theorem extGen_trans (g g2 g3 : GenState) (h1 : ExtGen g g2)
    (h2 : ExtGen g2 g3) : ExtGen g g3 :=
  fun d b h => h2 d b (h1 d b h)

mutual
theorem persistVal_digest (hash : Bytes → Digest) :
    ∀ (v : Value) (g : GenState), (persistVal hash g v).2 = digestOf hash v
  | .mk fields cs, g => by
    simp only [persistVal, digestOf]
    rw [persistChildren_digest hash cs g]
theorem persistChildren_digest (hash : Bytes → Digest) :
    ∀ (cs : ValueList) (g : GenState),
      (persistChildren hash g cs).2 = digestList hash cs
  | .nil, g => rfl
  | .cons v vs, g => by
    simp only [persistChildren, digestList]
    rw [persistVal_digest hash v g,
      persistChildren_digest hash vs (persistVal hash g v).1]
end

mutual
theorem containsV_mono (hash : Bytes → Digest) (g g2 : GenState)
    (hext : ExtGen g g2) :
    ∀ v : Value, ContainsV hash g v → ContainsV hash g2 v
  | .mk fields cs, h => by
    unfold ContainsV at h ⊢
    exact ⟨hext _ _ h.1, containsL_mono hash g g2 hext cs h.2⟩
theorem containsL_mono (hash : Bytes → Digest) (g g2 : GenState)
    (hext : ExtGen g g2) :
    ∀ cs : ValueList, ContainsL hash g cs → ContainsL hash g2 cs
  | .nil, _ => by
    unfold ContainsL
    trivial
  | .cons v vs, h => by
    unfold ContainsL at h ⊢
    exact ⟨containsV_mono hash g g2 hext v h.1,
      containsL_mono hash g g2 hext vs h.2⟩
end

mutual
theorem persistVal_stores (hash : Bytes → Digest)
    (hinj : Function.Injective hash) :
    ∀ (v : Value) (g : GenState), WFgen hash g →
      WFgen hash (persistVal hash g v).1 ∧ ExtGen g (persistVal hash g v).1 ∧
      ContainsV hash (persistVal hash g v).1 v ∧
      (persistVal hash g v).1.ioFail = g.ioFail
  | .mk fields cs, g, hwf => by
    obtain ⟨hwf2, hext2, hcontL, hio2⟩ :=
      persistChildren_stores hash hinj cs g hwf
    have hds := persistChildren_digest hash cs g
    simp only [persistVal]
    refine ⟨genPut_preserves_WF hash _ hwf2 _,
      extGen_trans g _ _ hext2 (genPut_preserves_lookup _ _ _), ?_, ?_⟩
    · unfold ContainsV
      constructor
      · simp only [digestOf, bufOf]
        rw [← hds]
        exact genPut_lookup_self hash hinj _ hwf2
          (encodeBuf fields (persistChildren hash g cs).2)
      · exact containsL_mono hash _ _ (genPut_preserves_lookup _ _ _) cs hcontL
    · rw [genPut_preserves_ioFail]
      exact hio2
theorem persistChildren_stores (hash : Bytes → Digest)
    (hinj : Function.Injective hash) :
    ∀ (cs : ValueList) (g : GenState), WFgen hash g →
      WFgen hash (persistChildren hash g cs).1 ∧
      ExtGen g (persistChildren hash g cs).1 ∧
      ContainsL hash (persistChildren hash g cs).1 cs ∧
      (persistChildren hash g cs).1.ioFail = g.ioFail
  | .nil, g, hwf => by
    refine ⟨hwf, extGen_refl g, ?_, rfl⟩
    unfold ContainsL
    trivial
  | .cons v vs, g, hwf => by
    obtain ⟨hwf1, hext1, hcont1, hio1⟩ := persistVal_stores hash hinj v g hwf
    obtain ⟨hwf2, hext2, hcont2, hio2⟩ :=
      persistChildren_stores hash hinj vs (persistVal hash g v).1 hwf1
    simp only [persistChildren]
    refine ⟨hwf2, extGen_trans g _ _ hext1 hext2, ?_, by rw [hio2, hio1]⟩
    unfold ContainsL
    exact ⟨containsV_mono hash _ _ hext2 v hcont1, hcont2⟩
end

mutual
theorem restoreVal_contains (hash : Bytes → Digest) (g : GenState)
    (gs : List GenState) (hio : g.ioFail = []) :
    ∀ (v : Value) (fuel : Nat), ContainsV hash g v → height v ≤ fuel →
      restoreVal (g :: gs) fuel (digestOf hash v) = .ok v
  | .mk fields cs, fuel, hc, hf => by
    unfold ContainsV at hc
    obtain ⟨hlook, hcl⟩ := hc
    cases fuel with
    | zero =>
      rw [height] at hf
      exact absurd hf (Nat.not_succ_le_zero _)
    | succ f =>
      have hfound : genGet g (digestOf hash (.mk fields cs)) =
          .found (bufOf hash (.mk fields cs)) := by
        unfold genGet
        rw [hio]
        simp only [lookupAssoc, hlook]
      have hscan := scanGet_hit g gs (digestOf hash (.mk fields cs))
        (bufOf hash (.mk fields cs)) hfound
      have hdec : decodeBuf (bufOf hash (.mk fields cs)) =
          some (fields, digestList hash cs) := by
        simp only [bufOf]
        exact decodeBuf_encodeBuf fields (digestList hash cs)
      have hrc := restoreChildren_contains hash g gs hio cs f hcl
        (by rw [height] at hf; exact Nat.succ_le_succ_iff.mp hf)
      simp only [restoreVal, hscan, hdec, hrc]
theorem restoreChildren_contains (hash : Bytes → Digest) (g : GenState)
    (gs : List GenState) (hio : g.ioFail = []) :
    ∀ (cs : ValueList) (fuel : Nat), ContainsL hash g cs →
      heightList cs ≤ fuel →
      restoreChildren (g :: gs) fuel (digestList hash cs) = .ok cs
  | .nil, fuel, _, _ => by
    simp [digestList, restoreChildren]
  | .cons v vs, fuel, hc, hf => by
    unfold ContainsL at hc
    rw [heightList] at hf
    have hv := restoreVal_contains hash g gs hio v fuel hc.1
      (le_trans (le_max_left _ _) hf)
    have hvs := restoreChildren_contains hash g gs hio vs fuel hc.2
      (le_trans (le_max_right _ _) hf)
    simp only [digestList, restoreChildren, hv, hvs]
end

/-- C1, confirmed. For any store whose generation-0 backend satisfies the
content-addressing invariant with no registered storage fault (true in
particular of every freshly constructed durable or volatile store, and
preserved by persist), and a collision-free hash capability (the spec
delegates collision resistance to the pluggable hash algorithm),
Store::persist succeeds with the value's content digest and restoring the
returned Snapshot reconstructs a value equal to the original — same fields
and same nested structure — given restore fuel covering the value's
height. The witness instantiates both a volatile-backend and a
disk-backend store. -/
theorem C1_persist_restore_roundtrip (hash : Bytes → Digest)
    (hinj : Function.Injective hash) (st : StoreSt) (g : GenState)
    (gs : List GenState) (hgens : st.generations = g :: gs)
    (hwf : WFgen hash g) (hio : g.ioFail = []) (v : Value) (fuel : Nat)
    (hf : height v ≤ fuel) :
    ∃ snap : Snapshot, Store.persistSnap hash st v = some snap ∧
      snap.hash = digestOf hash v ∧ snap.restore fuel = .ok v := by
  obtain ⟨hwf2, hext2, hcont, hio2⟩ := persistVal_stores hash hinj v g hwf
  refine ⟨⟨(persistVal hash g v).2,
    { st with generations := (persistVal hash g v).1 :: gs }⟩, ?_, ?_, ?_⟩
  · unfold Store.persistSnap Store.persist
    rw [hgens]
  · exact persistVal_digest hash v g
  · show restoreVal ((persistVal hash g v).1 :: gs) fuel
      (persistVal hash g v).2 = .ok v
    rw [persistVal_digest hash v g]
    refine restoreVal_contains hash _ gs ?_ v fuel hcont hf
    rw [hio2, hio]

theorem C1_persist_restore_roundtrip_witness :
    (∃ snap : Snapshot,
      Store.persistSnap (fun b => b) (StoreSt.mk [emptyGen .mem] ⟨[]⟩)
          (.mk [1, 2] (.cons (.mk [3] .nil) .nil)) = some snap ∧
      snap.hash = digestOf (fun b => b)
        (.mk [1, 2] (.cons (.mk [3] .nil) .nil)) ∧
      snap.restore 2 = .ok (.mk [1, 2] (.cons (.mk [3] .nil) .nil))) ∧
    (∃ snap : Snapshot,
      Store.persistSnap (fun b => b) (StoreSt.mk [emptyGen .disk] ⟨[]⟩)
          (.mk [1, 2] (.cons (.mk [3] .nil) .nil)) = some snap ∧
      snap.hash = digestOf (fun b => b)
        (.mk [1, 2] (.cons (.mk [3] .nil) .nil)) ∧
      snap.restore 2 = .ok (.mk [1, 2] (.cons (.mk [3] .nil) .nil))) := by
  constructor
  · exact C1_persist_restore_roundtrip (fun b => b) (fun a b h => h)
      (StoreSt.mk [emptyGen .mem] ⟨[]⟩) (emptyGen .mem) [] rfl
      (fun p hp => absurd hp (List.not_mem_nil p)) rfl
      (.mk [1, 2] (.cons (.mk [3] .nil) .nil)) 2 (by decide)
  · exact C1_persist_restore_roundtrip (fun b => b) (fun a b h => h)
      (StoreSt.mk [emptyGen .disk] ⟨[]⟩) (emptyGen .disk) [] rfl
      (fun p hp => absurd hp (List.not_mem_nil p)) rfl
      (.mk [1, 2] (.cons (.mk [3] .nil) .nil)) 2 (by decide)

end Kelvin
